import Mathlib

/-!
Shallow embedding of the document post-processing traversal engine of
`@chax-at/swagger-helpers-nest` (files `postProcessing.ts` and its current
variant with operation visitors, plus `postProcessing.types.ts`).

The TypeScript engine mutates an OpenAPI document in place; here the same
algorithm is expressed as a pure function from the incoming document to the
resulting document.  TypeScript truthiness tests are modelled faithfully:
`!pathItem.$ref` is true for an absent `$ref` and for the empty string;
`!propSchema.oneOf` is false for every array value, including the empty
array (`[]` is truthy in JavaScript); `propSchema.nullable` is truthy
exactly when the flag is present with value `true`.
-/

namespace SwaggerHelpers

/-- The HTTP methods of a path item, `Method` in `postProcessing.types.ts`
(the keys of `PathItemObject` whose values are `OperationObject`). -/
inductive Method : Type where
  | delete | get | head | options | patch | post | put
deriving DecidableEq, Repr

/-- The engine's internal method check sequence, verbatim from the source:
`['delete', 'get', 'get', 'head', 'options', 'patch', 'post', 'put']`
(note the duplicated `'get'`). -/
def methodsChecked : List Method :=
  [.delete, .get, .get, .head, .options, .patch, .post, .put]

/-- The deduplicated check sequence described by the spec ("each method is
checked exactly once"), used only for the refinement comparison of the
duplicated-`get` claim. -/
def methodsOnce : List Method :=
  [.delete, .get, .head, .options, .patch, .post, .put]

/-- A `PathItemObject`: one optional operation per HTTP method, plus the
optional `$ref` cross-reference marker.  Operations are opaque to the
engine, hence the type parameter `Op`. -/
structure PathItem (Op : Type) where
  ref : Option String := none
  delete : Option Op := none
  get : Option Op := none
  head : Option Op := none
  options : Option Op := none
  patch : Option Op := none
  post : Option Op := none
  put : Option Op := none
deriving DecidableEq, Repr

/-- `pathItem[method]`. -/
def PathItem.opOf {Op : Type} (p : PathItem Op) : Method → Option Op
  | .delete => p.delete
  | .get => p.get
  | .head => p.head
  | .options => p.options
  | .patch => p.patch
  | .post => p.post
  | .put => p.put

/-- Writing the slot of one method (`pathItem[method] = v`, or
`delete pathItem[method]` for `v = none`). -/
def PathItem.setOp {Op : Type} (p : PathItem Op) : Method → Option Op → PathItem Op
  | .delete, v => { p with delete := v }
  | .get, v => { p with get := v }
  | .head, v => { p with head := v }
  | .options, v => { p with options := v }
  | .patch, v => { p with patch := v }
  | .post, v => { p with post := v }
  | .put, v => { p with put := v }

/-- JavaScript truthiness of the `$ref` field: `!pathItem.$ref` is the
negation of this (an empty string is falsy). -/
def refTruthy : Option String → Bool
  | none => false
  | some s => s ≠ ""

/-- A property schema node (`SchemaObject | ReferenceObject`), restricted to
the keys the built-in visitors read or write: `$ref`, `allOf`, `oneOf`,
`nullable`.  `none` models an absent key. -/
inductive PropSchema : Type where
  | mk (ref : Option String) (allOf : Option (List PropSchema))
      (oneOf : Option (List PropSchema)) (nullable : Option Bool)

def PropSchema.ref : PropSchema → Option String
  | .mk r _ _ _ => r

def PropSchema.allOf : PropSchema → Option (List PropSchema)
  | .mk _ a _ _ => a

def PropSchema.oneOf : PropSchema → Option (List PropSchema)
  | .mk _ _ o _ => o

def PropSchema.nullable : PropSchema → Option Bool
  | .mk _ _ _ n => n

/-- A component schema: only its optional `properties` mapping is relevant
to the traversal (`'properties' in schema` is `properties ≠ none`; a
`ReferenceObject` has no `properties` key). -/
structure Schema where
  properties : Option (List (String × PropSchema)) := none

/-- `SchemaVisitor` from `postProcessing.types.ts`: in TypeScript it mutates
`propSchema` in place; here it returns the updated node. -/
def SchemaVisitor : Type := PropSchema → String → PropSchema

/-- `OperationVisitor` from `postProcessing.types.ts`:
`(operation, method, path) => void | 'delete'`.  The operation is handed in
mutable, so the pure model returns the (possibly updated) operation together
with whether `'delete'` was returned. -/
def OperationVisitor (Op : Type) : Type := Op → Method → String → Op × Bool

/-- The document: path mapping and the `components?.schemas ?? {}` mapping,
both as insertion-ordered association lists. -/
structure Document (Op : Type) where
  paths : List (String × PathItem Op) := []
  schemas : List (String × Schema) := []

/-- One visitor invocation record: `(path, method, index of the visitor in
the registered list)`.  The traversal functions return these as a ghost
trace mirroring exactly the calls the TypeScript loop performs. -/
abbrev Event : Type := String × Method × Nat

/-- The inner visitor loop for one populated `(path, method)`:
`for (const visitor of operationVisitors) { const result = visitor(operation,
method, path); if (result === 'delete') { ...; break; } }`.
Returns the operation after the in-place mutations, whether `'delete'` was
returned (causing the `break`), and the invocation trace; `i` is the index
of the first visitor of `vs` in the full registered list. -/
def runChain {Op : Type} (vs : List (OperationVisitor Op)) (i : Nat) (op : Op)
    (m : Method) (pth : String) : Op × Bool × List Event :=
  match vs with
  | [] => (op, false, [])
  | v :: rest =>
    let r := v op m pth
    if r.2 then (r.1, true, [(pth, m, i)])
    else
      let res := runChain rest (i + 1) r.1 m pth
      (res.1, res.2.1, (pth, m, i) :: res.2.2)

/-- The middle loop, `for (const method of methods)`: skips absent
operations, runs the visitor chain on present ones, deletes the slot on
`'delete'` and records in the returned `Bool` whether any operation of this
path item was deleted (`anOperationWasDeleted`). -/
def visitMethods {Op : Type} (vs : List (OperationVisitor Op)) (pth : String) :
    List Method → PathItem Op → PathItem Op × Bool × List Event
  | [], p => (p, false, [])
  | m :: ms, p =>
    match p.opOf m with
    | none => visitMethods vs pth ms p
    | some op =>
      let c := runChain vs 0 op m pth
      let p' := if c.2.1 then p.setOp m none else p.setOp m (some c.1)
      let r := visitMethods vs pth ms p'
      (r.1, (c.2.1 || r.2.1), c.2.2 ++ r.2.2)

/-- Processing of one path entry, parameterised by the method check
sequence `ms`: the method loop followed by the cascade check
`if (anOperationWasDeleted && !pathItem.$ref && methods.every(m =>
!pathItem[m])) delete swaggerDocument.paths[path]`.  Returns `none` when
the whole entry is deleted, and the invocation trace. -/
def processPathWith {Op : Type} (ms : List Method) (vs : List (OperationVisitor Op))
    (pth : String) (p : PathItem Op) : Option (PathItem Op) × List Event :=
  let r := visitMethods vs pth ms p
  if r.2.1 && !(refTruthy r.1.ref) && ms.all (fun m => (r.1.opOf m).isNone) then
    (none, r.2.2)
  else
    (some r.1, r.2.2)

/-- Processing of one path entry with the engine's actual check sequence. -/
def processPath {Op : Type} : List (OperationVisitor Op) → String → PathItem Op →
    Option (PathItem Op) × List Event :=
  processPathWith methodsChecked

/-- The inner property loop: `for (const visitor of propertyVisitors)
visitor(propSchema, propName)` — visitors are applied in registration
order to the property schema node. -/
def runPropertyVisitors (pvs : List SchemaVisitor) (propName : String)
    (s : PropSchema) : PropSchema :=
  pvs.foldl (fun cur v => v cur propName) s

/-- The property phase on one component schema: only schemas carrying a
`properties` key are visited (`if ('properties' in schema)`), and each
`(propName, propSchema)` entry is run through all property visitors. -/
def visitSchemaProperties (pvs : List SchemaVisitor) (s : Schema) : Schema :=
  match s.properties with
  | none => s
  | some props =>
    { s with properties := some (props.map fun pr => (pr.1, runPropertyVisitors pvs pr.1 pr.2)) }

/-- `traverseDocument`, parameterised by the operation-phase method check
sequence.  Each phase runs only when its visitor list is non-empty
(`if (operationVisitors?.length)` / `if (propertyVisitors?.length)`; an
omitted configuration yields the same skip).  The operation phase iterates
over a snapshot of the path keys, so deleting entries does not disturb the
iteration — modelled by `filterMap`. -/
def traverseWith {Op : Type} (ms : List Method) (doc : Document Op)
    (operationVisitors : List (OperationVisitor Op))
    (propertyVisitors : List SchemaVisitor) : Document Op :=
  let paths' :=
    match operationVisitors with
    | [] => doc.paths
    | _ =>
      doc.paths.filterMap fun pr =>
        (processPathWith ms operationVisitors pr.1 pr.2).1.map fun q => (pr.1, q)
  let schemas' :=
    match propertyVisitors with
    | [] => doc.schemas
    | _ => doc.schemas.map fun sr => (sr.1, visitSchemaProperties propertyVisitors sr.2)
  { paths := paths', schemas := schemas' }

/-- `traverseDocument` exactly as in the source: the operation phase checks
the methods in the sequence `methodsChecked` (with the duplicated `'get'`). -/
def traverseDocument {Op : Type} : Document Op → List (OperationVisitor Op) →
    List SchemaVisitor → Document Op :=
  traverseWith methodsChecked

/-- The traversal in which each method is checked exactly once, as the spec
describes it; only used to compare against `traverseDocument` for the
duplicated-`get` refinement claim. -/
def traverseDocumentOnce {Op : Type} : Document Op → List (OperationVisitor Op) →
    List SchemaVisitor → Document Op :=
  traverseWith methodsOnce

/-- `Length1AllOfToOneOfVisitor` from the source:
`if ('allOf' in propSchema && propSchema.allOf?.length === 1 &&
!propSchema.oneOf) { propSchema.oneOf = propSchema.allOf;
delete propSchema.allOf; }`.  A present `oneOf` array is always truthy in
JavaScript (even `[]`), so the guard demands an absent `oneOf` key. -/
def Length1AllOfToOneOfVisitor : SchemaVisitor := fun s _ =>
  match s with
  | .mk r (some l) none n =>
    if l.length = 1 then .mk r none (some l) n else .mk r (some l) none n
  | _ => s

/-- `MoveNullableToOneOfVisitor` from the source:
`if ('oneOf' in propSchema && propSchema.oneOf && propSchema.nullable) {
delete propSchema.nullable; propSchema.oneOf.push({ nullable: true }); }`.
Any present `oneOf` array is truthy (including `[]`); `nullable` is truthy
exactly when it is `true`. -/
def MoveNullableToOneOfVisitor : SchemaVisitor := fun s _ =>
  match s with
  | .mk r a (some l) (some true) =>
    .mk r a (some (l ++ [.mk none none none (some true)])) none
  | _ => s

/-! ### Concrete instances used in closed-form checks -/

/-- An operation visitor that always returns `'delete'`. -/
def deleteAllVisitor : OperationVisitor Nat := fun op _ _ => (op, true)

/-- An operation visitor that returns nothing and leaves its operation
untouched. -/
def keepAllVisitor : OperationVisitor Nat := fun op _ _ => (op, false)

/-- An operation visitor that returns `'delete'` exactly for `get`. -/
def deleteGetVisitor : OperationVisitor Nat := fun op m _ => (op, decide (m = .get))

/-- An operation visitor that mutates its operation (modelling a TypeScript
visitor that edits fields of the handed-in operation object) and never
requests deletion. -/
def incrementVisitor : OperationVisitor Nat := fun op _ _ => (op + 1, false)

/-- A reference property-schema node, `{ $ref: "#/components/schemas/CatDto" }`. -/
def catRef : PropSchema := .mk (some "#/components/schemas/CatDto") none none none

/-- A one-path document whose single `get` operation is the number `0`. -/
def sampleGetDoc : Document Nat := { paths := [("/a", { get := some 0 })], schemas := [] }

/-! ### Basic lemmas about path items and the method sequence -/

theorem opOf_setOp_self {Op : Type} (p : PathItem Op) (m : Method) (v : Option Op) :
    (p.setOp m v).opOf m = v := by
  cases m <;> rfl

theorem opOf_setOp_ne {Op : Type} (p : PathItem Op) {m m' : Method} (v : Option Op)
    (h : m' ≠ m) : (p.setOp m v).opOf m' = p.opOf m' := by
  cases m <;> cases m' <;> simp_all [PathItem.setOp, PathItem.opOf]

theorem ref_setOp {Op : Type} (p : PathItem Op) (m : Method) (v : Option Op) :
    (p.setOp m v).ref = p.ref := by
  cases m <;> rfl

theorem setOp_opOf_eq {Op : Type} (p : PathItem Op) {m : Method} {o : Op}
    (h : p.opOf m = some o) : p.setOp m (some o) = p := by
  cases p; cases m <;> simp_all [PathItem.setOp, PathItem.opOf]

theorem mem_methodsChecked (m : Method) : m ∈ methodsChecked := by
  cases m <;> simp [methodsChecked]

theorem all_methodsChecked_eq_once (f : Method → Bool) :
    methodsChecked.all f = methodsOnce.all f := by
  simp only [methodsChecked, methodsOnce, List.all_cons]
  cases f .get <;> simp

/-! ### Lemmas about the visitor chain of one `(path, method)` -/

theorem runChain_fst_nonmut {Op : Type} {vs : List (OperationVisitor Op)}
    (hnm : ∀ v ∈ vs, ∀ (o : Op) (m' : Method) (s : String), (v o m' s).1 = o)
    (i : Nat) (op : Op) (m : Method) (pth : String) :
    (runChain vs i op m pth).1 = op := by
  induction vs generalizing i op with
  | nil => rfl
  | cons v rest ih =>
    have hv := hnm v (List.mem_cons_self v rest)
    simp only [runChain]
    by_cases hd : (v op m pth).2
    · simp [hd, hv]
    · simp only [hd, Bool.false_eq_true, if_false]
      rw [hv op m pth]
      exact ih (fun w hw => hnm w (List.mem_cons_of_mem v hw)) (i + 1) op

theorem runChain_deletes {Op : Type} {vs : List (OperationVisitor Op)} {m : Method}
    (hdel : ∃ v ∈ vs, ∀ (o : Op) (s : String), (v o m s).2 = true)
    (i : Nat) (op : Op) (pth : String) :
    (runChain vs i op m pth).2.1 = true := by
  induction vs generalizing i op with
  | nil => simp at hdel
  | cons v rest ih =>
    obtain ⟨w, hw, hwdel⟩ := hdel
    simp only [runChain]
    by_cases hd : (v op m pth).2
    · simp [hd]
    · rcases List.mem_cons.mp hw with h | h
      · subst h; exact absurd (hwdel op pth) (by simp [hd])
      · simp only [hd, Bool.false_eq_true, if_false]
        exact ih ⟨w, h, hwdel⟩ (i + 1) _

theorem runChain_events_shape {Op : Type} (vs : List (OperationVisitor Op))
    (i : Nat) (op : Op) (m : Method) (pth : String) :
    ∀ e ∈ (runChain vs i op m pth).2.2, e.1 = pth ∧ e.2.1 = m := by
  induction vs generalizing i op with
  | nil => simp [runChain]
  | cons v rest ih =>
    simp only [runChain]
    by_cases hd : (v op m pth).2
    · simp [hd]
    · simp only [hd, Bool.false_eq_true, if_false, List.mem_cons]
      rintro e (rfl | he)
      · exact ⟨rfl, rfl⟩
      · exact ih (i + 1) _ e he

theorem runChain_cons {Op : Type} (v : OperationVisitor Op)
    (vs : List (OperationVisitor Op)) (i : Nat) (op : Op) (m : Method) (pth : String) :
    runChain (v :: vs) i op m pth =
      if (v op m pth).2 then ((v op m pth).1, true, [(pth, m, i)])
      else
        ((runChain vs (i + 1) (v op m pth).1 m pth).1,
          (runChain vs (i + 1) (v op m pth).1 m pth).2.1,
          (pth, m, i) :: (runChain vs (i + 1) (v op m pth).1 m pth).2.2) := rfl

/-- The chain when the visitors before `v` never request deletion at method
`m` and `v` always does: `v` fires, the chain short-circuits, and the trace
records exactly the visitors up to and including `v`, each once. -/
theorem runChain_firstDelete {Op : Type} {vs₁ vs₂ : List (OperationVisitor Op)}
    {v : OperationVisitor Op} {m : Method}
    (h1 : ∀ w ∈ vs₁, ∀ (o : Op) (s : String), (w o m s).2 = false)
    (hv : ∀ (o : Op) (s : String), (v o m s).2 = true)
    (i : Nat) (op : Op) (pth : String) :
    (runChain (vs₁ ++ v :: vs₂) i op m pth).2.1 = true ∧
      (runChain (vs₁ ++ v :: vs₂) i op m pth).2.2 =
        (List.range' i (vs₁.length + 1)).map (fun j => (pth, m, j)) := by
  induction vs₁ generalizing i op with
  | nil =>
    rw [List.nil_append, runChain_cons, if_pos (hv op pth)]
    exact ⟨rfl, by simp [List.range'_succ]⟩
  | cons w rest ih =>
    have hw := h1 w (List.mem_cons_self w rest)
    have hstep : (w :: rest) ++ v :: vs₂ = w :: (rest ++ v :: vs₂) := rfl
    rw [hstep, runChain_cons, if_neg (by simp [hw op pth])]
    have ihr := ih (fun u hu => h1 u (List.mem_cons_of_mem w hu)) (i + 1) ((w op m pth).1)
    refine ⟨ihr.1, ?_⟩
    dsimp only
    rw [ihr.2, List.length_cons,
      show rest.length + 1 + 1 = (rest.length + 1) + 1 from rfl,
      List.range'_succ i (rest.length + 1) 1, List.map_cons]

/-! ### Lemmas about the method loop -/

theorem visitMethods_cons_none {Op : Type} {vs : List (OperationVisitor Op)}
    {pth : String} {m : Method} {ms : List Method} {p : PathItem Op}
    (h : p.opOf m = none) :
    visitMethods vs pth (m :: ms) p = visitMethods vs pth ms p := by
  simp [visitMethods, h]

theorem visitMethods_cons_some {Op : Type} {vs : List (OperationVisitor Op)}
    {pth : String} {m : Method} {ms : List Method} {p : PathItem Op} {op : Op}
    (h : p.opOf m = some op) :
    visitMethods vs pth (m :: ms) p =
      ((visitMethods vs pth ms
          (if (runChain vs 0 op m pth).2.1 then p.setOp m none
           else p.setOp m (some (runChain vs 0 op m pth).1))).1,
        ((runChain vs 0 op m pth).2.1 ||
          (visitMethods vs pth ms
            (if (runChain vs 0 op m pth).2.1 then p.setOp m none
             else p.setOp m (some (runChain vs 0 op m pth).1))).2.1),
        (runChain vs 0 op m pth).2.2 ++
          (visitMethods vs pth ms
            (if (runChain vs 0 op m pth).2.1 then p.setOp m none
             else p.setOp m (some (runChain vs 0 op m pth).1))).2.2) := by
  simp [visitMethods, h]

theorem visitMethods_ref {Op : Type} (vs : List (OperationVisitor Op))
    (pth : String) (ms : List Method) (p : PathItem Op) :
    (visitMethods vs pth ms p).1.ref = p.ref := by
  induction ms generalizing p with
  | nil => rfl
  | cons m ms ih =>
    cases h : p.opOf m with
    | none => rw [visitMethods_cons_none h]; exact ih p
    | some op =>
      rw [visitMethods_cons_some h]
      dsimp only
      rw [ih]
      cases hc : (runChain vs 0 op m pth).2.1 <;> simp [ref_setOp]

/-- A method slot that is empty stays empty, and no invocation is recorded
for that method. -/
theorem visitMethods_absent {Op : Type} {vs : List (OperationVisitor Op)}
    {pth : String} {m : Method} (ms : List Method) (p : PathItem Op)
    (h : p.opOf m = none) :
    (visitMethods vs pth ms p).1.opOf m = none ∧
      (visitMethods vs pth ms p).2.2.filter (fun e => decide (e.2.1 = m)) = [] := by
  induction ms generalizing p with
  | nil => exact ⟨h, rfl⟩
  | cons m' ms ih =>
    cases h' : p.opOf m' with
    | none => rw [visitMethods_cons_none h']; exact ih p h
    | some op =>
      have hne : m ≠ m' := by rintro rfl; rw [h] at h'; exact Option.noConfusion h'
      rw [visitMethods_cons_some h']
      dsimp only
      have hp' : ∀ v', (p.setOp m' v').opOf m = none := fun v' => by
        rw [opOf_setOp_ne p v' hne]; exact h
      have hchain : (runChain vs 0 op m' pth).2.2.filter (fun e => decide (e.2.1 = m)) = [] := by
        refine List.filter_eq_nil_iff.mpr fun e he => ?_
        have := (runChain_events_shape vs 0 op m' pth e he).2
        simp [this, hne.symm]
      cases hc : (runChain vs 0 op m' pth).2.1 <;>
        simpa [hc, List.filter_append, hchain] using ih _ (hp' _)

/-- Short-circuit at the method-loop level: if the registered list is
`vs₁ ++ v :: vs₂` where no visitor of `vs₁` requests deletion at method `m`
and `v` always does, then the populated slot `m` is deleted, a deletion is
recorded, and the `m`-invocations are exactly the visitors `0 .. vs₁.length`
in order, each once — even with the duplicated `get` in the sequence,
because the second pass finds the slot already empty. -/
theorem visitMethods_firstDelete {Op : Type} {vs₁ vs₂ : List (OperationVisitor Op)}
    {v : OperationVisitor Op} {m : Method} {pth : String}
    (h1 : ∀ w ∈ vs₁, ∀ (o : Op) (s : String), (w o m s).2 = false)
    (hv : ∀ (o : Op) (s : String), (v o m s).2 = true)
    (ms : List Method) (p : PathItem Op) {op : Op}
    (hop : p.opOf m = some op) (hmem : m ∈ ms) :
    (visitMethods (vs₁ ++ v :: vs₂) pth ms p).1.opOf m = none ∧
      (visitMethods (vs₁ ++ v :: vs₂) pth ms p).2.2.filter (fun e => decide (e.2.1 = m)) =
        (List.range' 0 (vs₁.length + 1)).map (fun j => (pth, m, j)) ∧
      (visitMethods (vs₁ ++ v :: vs₂) pth ms p).2.1 = true := by
  induction ms generalizing p op with
  | nil => cases hmem
  | cons m' ms ih =>
    by_cases hmm : m' = m
    · subst hmm
      rw [visitMethods_cons_some hop]
      dsimp only
      have hc := @runChain_firstDelete Op vs₁ vs₂ v m' h1 hv 0 op pth
      have habs := @visitMethods_absent Op (vs₁ ++ v :: vs₂) pth m' ms
        (p.setOp m' none) (by rw [opOf_setOp_self])
      simp only [hc.1, if_true]
      refine ⟨habs.1, ?_, by simp⟩
      rw [List.filter_append, habs.2, List.append_nil, hc.2]
      refine List.filter_eq_self.mpr fun e he => ?_
      obtain ⟨j, _, rfl⟩ := List.mem_map.mp he
      simp
    · have hmem' : m ∈ ms := by
        rcases List.mem_cons.mp hmem with h | h
        · exact absurd h.symm hmm
        · exact h
      cases h' : p.opOf m' with
      | none => rw [visitMethods_cons_none h']; exact ih p hop hmem'
      | some op' =>
        rw [visitMethods_cons_some h']
        dsimp only
        have hpres : ∀ v', (p.setOp m' v').opOf m = some op := fun v' => by
          rw [opOf_setOp_ne p v' fun h => hmm h.symm]; exact hop
        have hchain : (runChain (vs₁ ++ v :: vs₂) 0 op' m' pth).2.2.filter
            (fun e => decide (e.2.1 = m)) = [] := by
          refine List.filter_eq_nil_iff.mpr fun e he => ?_
          have := (runChain_events_shape _ 0 op' m' pth e he).2
          simp [this, hmm]
        cases hc' : (runChain (vs₁ ++ v :: vs₂) 0 op' m' pth).2.1
        · simp only [Bool.false_eq_true, if_false]
          obtain ⟨ja, jb, jc⟩ :=
            ih (p.setOp m' (some (runChain (vs₁ ++ v :: vs₂) 0 op' m' pth).1))
              (hpres _) hmem'
          exact ⟨ja, by rw [List.filter_append, hchain, List.nil_append, jb],
            by rw [jc, Bool.or_true]⟩
        · simp only [if_true]
          obtain ⟨ja, jb, jc⟩ := ih (p.setOp m' none) (hpres _) hmem'
          exact ⟨ja, by rw [List.filter_append, hchain, List.nil_append, jb],
            by rw [jc, Bool.or_true]⟩

/-- When some registered visitor deletes every operation it sees, every
method slot listed in the sequence ends up empty, and a deletion is
recorded exactly when some listed slot was populated. -/
theorem visitMethods_alwaysDelete {Op : Type} {vs : List (OperationVisitor Op)}
    {pth : String}
    (hdel : ∃ v ∈ vs, ∀ (o : Op) (m' : Method) (s : String), (v o m' s).2 = true)
    (ms : List Method) (p : PathItem Op) :
    (∀ m', (visitMethods vs pth ms p).1.opOf m' = if m' ∈ ms then none else p.opOf m') ∧
      (visitMethods vs pth ms p).2.1 = ms.any (fun m' => (p.opOf m').isSome) := by
  induction ms generalizing p with
  | nil => exact ⟨fun m' => by simp [visitMethods], by simp [visitMethods]⟩
  | cons m ms ih =>
    have hdelm : ∀ (m₀ : Method), ∃ v ∈ vs, ∀ (o : Op) (s : String), (v o m₀ s).2 = true :=
      fun m₀ => hdel.elim fun v hv => ⟨v, hv.1, fun o s => hv.2 o m₀ s⟩
    cases h : p.opOf m with
    | none =>
      rw [visitMethods_cons_none h]
      refine ⟨fun m' => ?_, ?_⟩
      · rw [(ih p).1 m']
        by_cases hm : m' = m
        · subst hm; simp [h]
        · simp [List.mem_cons, hm]
      · rw [(ih p).2]; simp [h]
    | some op =>
      rw [visitMethods_cons_some h]
      dsimp only
      have hc : (runChain vs 0 op m pth).2.1 = true := runChain_deletes (hdelm m) 0 op pth
      simp only [hc, if_true, Bool.true_or]
      refine ⟨fun m' => ?_, ?_⟩
      · rw [(ih _).1 m']
        by_cases hm : m' = m
        · subst hm; simp [opOf_setOp_self]
        · rw [opOf_setOp_ne p none hm]; simp [List.mem_cons, hm]
      · simp [h]

/-- The method loop with a single visitor that always deletes at `m₁` and
never at `m₂`, on a path item populated exactly at `m₁` and `m₂`: the `m₁`
slot is emptied, the `m₂` slot stays populated, all other slots stay empty,
and a deletion is recorded iff `m₁` is in the sequence. -/
theorem visitMethods_two {Op : Type} {v : OperationVisitor Op} {m₁ m₂ : Method}
    {pth : String} (hne : m₁ ≠ m₂)
    (hv₁ : ∀ (o : Op) (s : String), (v o m₁ s).2 = true)
    (hv₂ : ∀ (o : Op) (s : String), (v o m₂ s).2 = false)
    (ms : List Method) (p : PathItem Op)
    (inv : ∀ m, m ≠ m₁ → m ≠ m₂ → p.opOf m = none) :
    ((visitMethods [v] pth ms p).1.opOf m₁ = if m₁ ∈ ms then none else p.opOf m₁) ∧
      ((visitMethods [v] pth ms p).1.opOf m₂).isSome = (p.opOf m₂).isSome ∧
      (∀ m, m ≠ m₁ → m ≠ m₂ → (visitMethods [v] pth ms p).1.opOf m = none) ∧
      (visitMethods [v] pth ms p).2.1 = (decide (m₁ ∈ ms) && (p.opOf m₁).isSome) := by
  induction ms generalizing p with
  | nil => exact ⟨by simp [visitMethods], rfl, inv, by simp [visitMethods]⟩
  | cons m ms ih =>
    by_cases hm1 : m = m₁
    · subst hm1
      cases h : p.opOf m with
      | none =>
        rw [visitMethods_cons_none h]
        obtain ⟨ia, ib, ic, id⟩ := ih p inv
        refine ⟨?_, ib, ic, ?_⟩
        · rw [ia]; by_cases hmem : m ∈ ms <;> simp [List.mem_cons, hmem, h]
        · rw [id]; simp [h]
      | some op =>
        rw [visitMethods_cons_some h]
        dsimp only
        have hc : (runChain [v] 0 op m pth).2.1 = true := by
          rw [runChain_cons, if_pos (hv₁ op pth)]
        simp only [hc, if_true, Bool.true_or]
        have inv' : ∀ m', m' ≠ m → m' ≠ m₂ → (p.setOp m none).opOf m' = none :=
          fun m' h1 h2 => by rw [opOf_setOp_ne p none h1]; exact inv m' h1 h2
        obtain ⟨ia, ib, ic, id⟩ := ih (p.setOp m none) inv'
        refine ⟨?_, ?_, ic, by simp [List.mem_cons]⟩
        · rw [ia]
          by_cases hmem : m ∈ ms <;> simp [List.mem_cons, hmem, opOf_setOp_self]
        · rw [ib, opOf_setOp_ne p none hne.symm]
    · have hm1' : m₁ ≠ m := fun h' => hm1 h'.symm
      by_cases hm2 : m = m₂
      · subst hm2
        cases h : p.opOf m with
        | none =>
          rw [visitMethods_cons_none h]
          obtain ⟨ia, ib, ic, id⟩ := ih p inv
          refine ⟨?_, by rw [ib, h], ic, ?_⟩
          · rw [ia]; simp [List.mem_cons, hm1']
          · rw [id]; simp [List.mem_cons, hm1']
        | some op =>
          rw [visitMethods_cons_some h]
          dsimp only
          have hc : (runChain [v] 0 op m pth).2.1 = false := by
            rw [runChain_cons, if_neg (by simp [hv₂ op pth])]; rfl
          simp only [hc, Bool.false_eq_true, if_false, Bool.false_or]
          have inv' : ∀ m', m' ≠ m₁ → m' ≠ m →
              (p.setOp m (some (runChain [v] 0 op m pth).1)).opOf m' = none :=
            fun m' h1 h2 => by rw [opOf_setOp_ne p _ h2]; exact inv m' h1 h2
          obtain ⟨ia, ib, ic, id⟩ :=
            ih (p.setOp m (some (runChain [v] 0 op m pth).1)) inv'
          have hset : (p.setOp m (some (runChain [v] 0 op m pth).1)).opOf m₁ = p.opOf m₁ :=
            opOf_setOp_ne p _ hne
          refine ⟨?_, ?_, ic, ?_⟩
          · rw [ia, hset]; simp [List.mem_cons, hm1']
          · rw [ib, opOf_setOp_self]; rfl
          · rw [id, hset]; simp [List.mem_cons, hm1']
      · have h : p.opOf m = none := inv m hm1 hm2
        rw [visitMethods_cons_none h]
        obtain ⟨ia, ib, ic, id⟩ := ih p inv
        refine ⟨?_, ib, ic, ?_⟩
        · rw [ia]; simp [List.mem_cons, hm1']
        · rw [id]; simp [List.mem_cons, hm1']

/-- With visitors that never modify their operation argument, checking a
method twice in a row is the same as checking it once (same resulting path
item, same deletion flag): a deleted slot is empty on the second pass, and
a surviving slot is rewritten with the unchanged operation, on which the
deterministic chain reaches the same verdict. -/
theorem visitMethods_dup {Op : Type} {vs : List (OperationVisitor Op)} {pth : String}
    (hnm : ∀ v ∈ vs, ∀ (o : Op) (m' : Method) (s : String), (v o m' s).1 = o)
    (m : Method) (ms : List Method) (p : PathItem Op) :
    (visitMethods vs pth (m :: m :: ms) p).1 = (visitMethods vs pth (m :: ms) p).1 ∧
      (visitMethods vs pth (m :: m :: ms) p).2.1 = (visitMethods vs pth (m :: ms) p).2.1 := by
  cases h : p.opOf m with
  | none => rw [visitMethods_cons_none h]; exact ⟨rfl, rfl⟩
  | some op =>
    have hop1 : (runChain vs 0 op m pth).1 = op := runChain_fst_nonmut hnm 0 op m pth
    have hp' : p.setOp m (some (runChain vs 0 op m pth).1) = p := by
      rw [hop1]; exact setOp_opOf_eq p h
    cases hc : (runChain vs 0 op m pth).2.1
    · rw [visitMethods_cons_some h]
      simp only [hc, Bool.false_eq_true, if_false, hp']
      rw [visitMethods_cons_some h]
      simp only [hc, Bool.false_eq_true, if_false, hp']
      simp
    · rw [visitMethods_cons_some h]
      simp only [hc, if_true]
      rw [visitMethods_cons_none (opOf_setOp_self p m none)]
      rw [visitMethods_cons_some h]
      simp only [hc, if_true]
      simp

/-- In an association list with pairwise distinct keys, a key determines
its value. -/
theorem assoc_unique {α : Type} {l : List (String × α)} {k : String} {a b : α}
    (hnd : (l.map Prod.fst).Nodup) (ha : (k, a) ∈ l) (hb : (k, b) ∈ l) : a = b := by
  induction l with
  | nil => cases ha
  | cons x xs ih =>
    rw [List.map_cons, List.nodup_cons] at hnd
    rcases List.mem_cons.mp ha with h1 | h1
    · rcases List.mem_cons.mp hb with h2 | h2
      · rw [← h1] at h2; exact (Prod.mk.injEq _ _ _ _ ▸ h2 : _ ∧ _).2.symm ▸ rfl
      · exact absurd (List.mem_map.mpr ⟨(k, b), h2, by rw [← h1]⟩) hnd.1
    · rcases List.mem_cons.mp hb with h2 | h2
      · exact absurd (List.mem_map.mpr ⟨(k, a), h1, by rw [← h2]⟩) hnd.1
      · exact ih hnd.2 h1 h2

/-! ### Node-level lemmas about the two built-in property visitors -/

/-- Applying the built-in visitor pair (flatten, then relocate nullable) a
second time to any node changes nothing. -/
theorem builtin_node_idem (nm : String) (s : PropSchema) :
    MoveNullableToOneOfVisitor (Length1AllOfToOneOfVisitor
        (MoveNullableToOneOfVisitor (Length1AllOfToOneOfVisitor s nm) nm) nm) nm =
      MoveNullableToOneOfVisitor (Length1AllOfToOneOfVisitor s nm) nm := by
  obtain ⟨r, a, o, nu⟩ := s
  cases a with
  | none =>
    cases o with
    | none => cases nu with
      | none => rfl
      | some b => cases b <;> rfl
    | some lo => cases nu with
      | none => rfl
      | some b => cases b <;> rfl
  | some l =>
    cases o with
    | none =>
      by_cases hl : l.length = 1
      · cases nu with
        | none => simp [Length1AllOfToOneOfVisitor, MoveNullableToOneOfVisitor, hl]
        | some b => cases b <;> simp [Length1AllOfToOneOfVisitor, MoveNullableToOneOfVisitor, hl]
      · cases nu with
        | none => simp [Length1AllOfToOneOfVisitor, MoveNullableToOneOfVisitor, hl]
        | some b => cases b <;> simp [Length1AllOfToOneOfVisitor, MoveNullableToOneOfVisitor, hl]
    | some lo => cases nu with
      | none => rfl
      | some b => cases b <;> rfl

/-- C5 (amended): the two built-in property visitors are order-independent
on every property schema node except those where the flattening guard and
the nullable flag hold together (a length-1 `allOf`, no `oneOf` key, and
`nullable: true`); on such nodes flatten-then-relocate additionally moves
the nullable flag into the new `oneOf`, while relocate-then-flatten leaves
`nullable` in place, so the orders disagree there (see the counterexample). -/
theorem builtin_visitors_commute_outside_interaction (nm : String) (s : PropSchema)
    (h : ¬(s.nullable = some true ∧ s.oneOf = none ∧ ∃ l, s.allOf = some l ∧ l.length = 1)) :
    MoveNullableToOneOfVisitor (Length1AllOfToOneOfVisitor s nm) nm =
      Length1AllOfToOneOfVisitor (MoveNullableToOneOfVisitor s nm) nm := by
  obtain ⟨r, a, o, nu⟩ := s
  cases a with
  | none =>
    cases o with
    | none => cases nu with
      | none => rfl
      | some b => cases b <;> rfl
    | some lo => cases nu with
      | none => rfl
      | some b => cases b <;> rfl
  | some l =>
    cases o with
    | none =>
      cases nu with
      | none =>
        by_cases hl : l.length = 1 <;>
          simp [Length1AllOfToOneOfVisitor, MoveNullableToOneOfVisitor, hl]
      | some b =>
        cases b with
        | false =>
          by_cases hl : l.length = 1 <;>
            simp [Length1AllOfToOneOfVisitor, MoveNullableToOneOfVisitor, hl]
        | true =>
          have hl : l.length ≠ 1 := fun hl => h ⟨rfl, rfl, l, rfl, hl⟩
          simp [Length1AllOfToOneOfVisitor, MoveNullableToOneOfVisitor, hl]
    | some lo => cases nu with
      | none => rfl
      | some b => cases b <;> rfl

/-! ### Traversal-level helper lemmas -/

theorem traverseWith_paths_nil {Op : Type} (ms : List Method) (doc : Document Op)
    (pvs : List SchemaVisitor) : (traverseWith ms doc [] pvs).paths = doc.paths := rfl

theorem traverseWith_paths_cons {Op : Type} (ms : List Method) (doc : Document Op)
    (v : OperationVisitor Op) (vs : List (OperationVisitor Op)) (pvs : List SchemaVisitor) :
    (traverseWith ms doc (v :: vs) pvs).paths =
      doc.paths.filterMap fun pr =>
        (processPathWith ms (v :: vs) pr.1 pr.2).1.map fun q => (pr.1, q) := rfl

/-- A path entry with a populated slot survives as `none` from the cascade
only through the `if`; when some registered visitor deletes everything, the
whole entry is dropped (provided its `$ref` is falsy). -/
theorem processPathWith_alwaysDelete {Op : Type} {vs : List (OperationVisitor Op)}
    {pth : String} {p : PathItem Op} {m₀ : Method} {o₀ : Op}
    (hdel : ∃ v ∈ vs, ∀ (o : Op) (m : Method) (s : String), (v o m s).2 = true)
    (h₀ : p.opOf m₀ = some o₀) (href : refTruthy p.ref = false) :
    (processPathWith methodsChecked vs pth p).1 = none := by
  obtain ⟨hopOf, hflag⟩ := visitMethods_alwaysDelete hdel methodsChecked p
  have h1 : (visitMethods vs pth methodsChecked p).2.1 = true := by
    rw [hflag]
    exact List.any_eq_true.mpr ⟨m₀, mem_methodsChecked m₀, by rw [h₀]; rfl⟩
  have h2 : refTruthy (visitMethods vs pth methodsChecked p).1.ref = false := by
    rw [visitMethods_ref]; exact href
  have h3 : methodsChecked.all
      (fun m => ((visitMethods vs pth methodsChecked p).1.opOf m).isNone) = true :=
    List.all_eq_true.mpr fun m hm => by rw [hopOf m, if_pos hm]; rfl
  simp [processPathWith, h1, h2, h3]

/-- The property phase with the built-in pair is idempotent on each
component schema. -/
theorem visitSchemaProperties_builtin_idem (s : Schema) :
    visitSchemaProperties [Length1AllOfToOneOfVisitor, MoveNullableToOneOfVisitor]
        (visitSchemaProperties [Length1AllOfToOneOfVisitor, MoveNullableToOneOfVisitor] s) =
      visitSchemaProperties [Length1AllOfToOneOfVisitor, MoveNullableToOneOfVisitor] s := by
  obtain ⟨props⟩ := s
  cases props with
  | none => rfl
  | some l =>
    show Schema.mk (some _) = Schema.mk (some _)
    refine congrArg Schema.mk (congrArg some ?_)
    rw [List.map_map]
    refine List.map_congr_left fun pr _ => ?_
    exact congrArg (fun z => (pr.1, z)) (builtin_node_idem pr.1 pr.2)

theorem Document.ext' {Op : Type} {d₁ d₂ : Document Op} (h1 : d₁.paths = d₂.paths)
    (h2 : d₁.schemas = d₂.schemas) : d₁ = d₂ := by
  cases d₁; cases d₂; cases h1; cases h2; rfl

theorem traverseDocument_paths_nil {Op : Type} (doc : Document Op)
    (pvs : List SchemaVisitor) : (traverseDocument doc [] pvs).paths = doc.paths := rfl

theorem traverseDocument_paths_cons {Op : Type} (doc : Document Op)
    (v : OperationVisitor Op) (vs : List (OperationVisitor Op)) (pvs : List SchemaVisitor) :
    (traverseDocument doc (v :: vs) pvs).paths =
      doc.paths.filterMap fun pr =>
        (processPathWith methodsChecked (v :: vs) pr.1 pr.2).1.map fun q => (pr.1, q) := rfl

theorem traverseDocumentOnce_paths_cons {Op : Type} (doc : Document Op)
    (v : OperationVisitor Op) (vs : List (OperationVisitor Op)) (pvs : List SchemaVisitor) :
    (traverseDocumentOnce doc (v :: vs) pvs).paths =
      doc.paths.filterMap fun pr =>
        (processPathWith methodsOnce (v :: vs) pr.1 pr.2).1.map fun q => (pr.1, q) := rfl

/-! ### The claims -/

/-- C9: with both visitor lists empty (the same skip the source performs for
an omitted configuration object, since `operationVisitors?.length` and
`propertyVisitors?.length` are then falsy), `traverseDocument` leaves every
part of the document unchanged. -/
theorem empty_configuration_noop {Op : Type} (doc : Document Op) :
    traverseDocument doc [] [] = doc := rfl

/-- C7: a property schema whose `allOf` holds exactly one schema and which
has no `oneOf` key is rewritten to a single-entry `oneOf` with the `allOf`
key removed; a property schema that already has a `oneOf` list is left
entirely unchanged (its `allOf` included). -/
theorem length1_allof_flattening :
    (∀ (r : Option String) (X : PropSchema) (nu : Option Bool) (nm : String),
        Length1AllOfToOneOfVisitor (.mk r (some [X]) none nu) nm = .mk r none (some [X]) nu) ∧
      (∀ (s : PropSchema) (l : List PropSchema) (nm : String),
        s.oneOf = some l → Length1AllOfToOneOfVisitor s nm = s) := by
  constructor
  · intro r X nu nm; rfl
  · intro s l nm h
    obtain ⟨r, a, o, nu⟩ := s
    cases o with
    | none => exact Option.noConfusion h
    | some lo => cases a <;> rfl

theorem length1_allof_flattening_witness :
    PropSchema.oneOf (.mk none (some [catRef]) (some []) none) = some [] ∧
      Length1AllOfToOneOfVisitor (.mk none (some [catRef]) (some []) none) "pet" =
        .mk none (some [catRef]) (some []) none :=
  ⟨rfl, length1_allof_flattening.2 (.mk none (some [catRef]) (some []) none) [] "pet" rfl⟩

/-- C8: on a property schema with a non-empty `oneOf` list and
`nullable: true`, the relocation visitor removes the `nullable` key and
appends `{ nullable: true }` at the end of the `oneOf` list, keeping the
existing entries and their order. -/
theorem nullable_relocation (r : Option String) (a : Option (List PropSchema))
    (l : List PropSchema) (nm : String) (_hne : l ≠ []) :
    MoveNullableToOneOfVisitor (.mk r a (some l) (some true)) nm =
      .mk r a (some (l ++ [.mk none none none (some true)])) none := rfl

theorem nullable_relocation_witness :
    ([catRef] ≠ ([] : List PropSchema)) ∧
      MoveNullableToOneOfVisitor (.mk none none (some [catRef]) (some true)) "pet" =
        .mk none none (some [catRef, .mk none none none (some true)]) none :=
  ⟨by simp, nullable_relocation none none [catRef] "pet" (by simp)⟩

/-- C10: the relocation visitor also fires when the `oneOf` key holds an
empty list (an empty array is truthy in JavaScript): the `nullable` key is
removed and `oneOf` becomes the single-element list `[{ nullable: true }]`. -/
theorem move_nullable_fires_on_empty_oneof (r : Option String)
    (a : Option (List PropSchema)) (nm : String) :
    MoveNullableToOneOfVisitor (.mk r a (some []) (some true)) nm =
      .mk r a (some [.mk none none none (some true)]) none := rfl

/-- C5 (counterexample): on the node `{ allOf: [{$ref: CatDto}], nullable:
true }` the two built-in visitors do not commute — flatten-then-relocate
yields `{ oneOf: [catRef, {nullable: true}] }` while relocate-then-flatten
yields `{ oneOf: [catRef], nullable: true }`. -/
theorem visitor_order_counterexample :
    MoveNullableToOneOfVisitor (Length1AllOfToOneOfVisitor
        (.mk none (some [catRef]) none (some true)) "pet") "pet" ≠
      Length1AllOfToOneOfVisitor (MoveNullableToOneOfVisitor
        (.mk none (some [catRef]) none (some true)) "pet") "pet" := by
  have e1 : MoveNullableToOneOfVisitor (Length1AllOfToOneOfVisitor
      (.mk none (some [catRef]) none (some true)) "pet") "pet" =
      .mk none none (some [catRef, .mk none none none (some true)]) none := rfl
  have e2 : Length1AllOfToOneOfVisitor (MoveNullableToOneOfVisitor
      (.mk none (some [catRef]) none (some true)) "pet") "pet" =
      .mk none none (some [catRef]) (some true) := rfl
  rw [e1, e2]
  intro h
  injection h with h1 h2 h3 h4
  exact Option.noConfusion h4

theorem visitor_order_witness :
    ¬(PropSchema.nullable (.mk none none (some [catRef]) (some true)) = some true ∧
        PropSchema.oneOf (.mk none none (some [catRef]) (some true)) = none ∧
        ∃ l, PropSchema.allOf (.mk none none (some [catRef]) (some true)) = some l ∧
          l.length = 1) ∧
      MoveNullableToOneOfVisitor (Length1AllOfToOneOfVisitor
          (.mk none none (some [catRef]) (some true)) "pet") "pet" =
        Length1AllOfToOneOfVisitor (MoveNullableToOneOfVisitor
          (.mk none none (some [catRef]) (some true)) "pet") "pet" :=
  ⟨by simp [PropSchema.nullable, PropSchema.oneOf, PropSchema.allOf],
    builtin_visitors_commute_outside_interaction "pet" _
      (by simp [PropSchema.nullable, PropSchema.oneOf, PropSchema.allOf])⟩

/-- C6: running `traverseDocument` with the built-in property visitor pair
twice in succession produces the same document as running it once; each
node a visitor already transformed is left unchanged by the second sweep. -/
theorem builtin_visitor_set_idempotent {Op : Type} (doc : Document Op) :
    traverseDocument (traverseDocument doc []
        [Length1AllOfToOneOfVisitor, MoveNullableToOneOfVisitor]) []
      [Length1AllOfToOneOfVisitor, MoveNullableToOneOfVisitor] =
      traverseDocument doc [] [Length1AllOfToOneOfVisitor, MoveNullableToOneOfVisitor] := by
  have h : ∀ (sl : List (String × Schema)),
      (sl.map fun sr => (sr.1, visitSchemaProperties
          [Length1AllOfToOneOfVisitor, MoveNullableToOneOfVisitor] sr.2)).map
        (fun sr => (sr.1, visitSchemaProperties
          [Length1AllOfToOneOfVisitor, MoveNullableToOneOfVisitor] sr.2)) =
      sl.map fun sr => (sr.1, visitSchemaProperties
          [Length1AllOfToOneOfVisitor, MoveNullableToOneOfVisitor] sr.2) := by
    intro sl
    rw [List.map_map]
    exact List.map_congr_left fun sr _ =>
      congrArg (fun z => (sr.1, z)) (visitSchemaProperties_builtin_idem sr.2)
  exact congrArg (Document.mk doc.paths) (h doc.schemas)

/-- C1: cascade deletion is correct.  (a) A path entry with exactly one
populated method and a falsy `$ref` (the cascade's own precondition, stated
in the spec's invariant) is removed entirely — operation and entry — when a
visitor that always returns `'delete'` is registered.  (b) A path entry
with exactly two populated methods, visited by a single visitor that
deletes exactly one of them, survives with exactly the other operation. -/
theorem cascade_deletion_correct :
    (∀ (Op : Type) (doc : Document Op) (vs : List (OperationVisitor Op))
        (pvs : List SchemaVisitor) (pth : String) (p : PathItem Op) (m₀ : Method) (o₀ : Op),
        (doc.paths.map Prod.fst).Nodup → (pth, p) ∈ doc.paths →
        p.opOf m₀ = some o₀ → (∀ m, m ≠ m₀ → p.opOf m = none) →
        refTruthy p.ref = false →
        (∃ v ∈ vs, ∀ (o : Op) (m : Method) (s : String), (v o m s).2 = true) →
        ∀ q : PathItem Op, (pth, q) ∉ (traverseDocument doc vs pvs).paths) ∧
      (∀ (Op : Type) (doc : Document Op) (v : OperationVisitor Op)
          (pvs : List SchemaVisitor) (pth : String) (p : PathItem Op) (m₁ m₂ : Method)
          (o₁ o₂ : Op),
        m₁ ≠ m₂ → (pth, p) ∈ doc.paths →
        p.opOf m₁ = some o₁ → p.opOf m₂ = some o₂ →
        (∀ m, m ≠ m₁ → m ≠ m₂ → p.opOf m = none) →
        (∀ (o : Op) (s : String), (v o m₁ s).2 = true) →
        (∀ (o : Op) (s : String), (v o m₂ s).2 = false) →
        ∃ q : PathItem Op, (pth, q) ∈ (traverseDocument doc [v] pvs).paths ∧
          q.opOf m₁ = none ∧ (q.opOf m₂).isSome = true ∧
          ∀ m, m ≠ m₂ → q.opOf m = none) := by
  constructor
  · intro Op doc vs pvs pth p m₀ o₀ hnd hmem h₀ _hothers href hdel q hq
    obtain ⟨v0, hv0, hv0del⟩ := hdel
    cases vs with
    | nil => simp at hv0
    | cons w ws =>
      rw [traverseDocument_paths_cons] at hq
      obtain ⟨pr, hpr, hf⟩ := List.mem_filterMap.mp hq
      rw [Option.map_eq_some'] at hf
      obtain ⟨q', hq', hpair⟩ := hf
      have hk : pr.1 = pth := congrArg Prod.fst hpair
      have hmem' : (pth, pr.2) ∈ doc.paths := by rw [← hk]; exact hpr
      have hp2 : pr.2 = p := assoc_unique hnd hmem' hmem
      rw [hk, hp2] at hq'
      rw [processPathWith_alwaysDelete ⟨v0, hv0, hv0del⟩ h₀ href] at hq'
      exact Option.noConfusion hq'
  · intro Op doc v pvs pth p m₁ m₂ o₁ o₂ hne hmem h₁ h₂ hothers hv₁ hv₂
    obtain ⟨ia, ib, ic, id⟩ :=
      @visitMethods_two Op v m₁ m₂ pth hne hv₁ hv₂ methodsChecked p hothers
    have hm2 : ((visitMethods [v] pth methodsChecked p).1.opOf m₂).isNone = false := by
      cases hq2 : (visitMethods [v] pth methodsChecked p).1.opOf m₂ with
      | none => rw [hq2, h₂] at ib; exact absurd ib (by simp)
      | some o => rfl
    have hall : methodsChecked.all
        (fun m => ((visitMethods [v] pth methodsChecked p).1.opOf m).isNone) = false := by
      cases hall : methodsChecked.all
          (fun m => ((visitMethods [v] pth methodsChecked p).1.opOf m).isNone) with
      | false => rfl
      | true =>
        exact absurd (List.all_eq_true.mp hall m₂ (mem_methodsChecked m₂))
          (by rw [hm2]; simp)
    refine ⟨(visitMethods [v] pth methodsChecked p).1, ?_, ?_, ?_, ?_⟩
    · rw [traverseDocument_paths_cons]
      refine List.mem_filterMap.mpr ⟨(pth, p), hmem, ?_⟩
      simp [processPathWith, hall]
    · rw [ia, if_pos (mem_methodsChecked m₁)]
    · rw [ib, h₂]; rfl
    · intro m hm
      by_cases hm1 : m = m₁
      · subst hm1; rw [ia, if_pos (mem_methodsChecked m)]
      · exact ic m hm1 hm

theorem cascade_deletion_correct_witness :
    (∀ q : PathItem Nat, ("/a", q) ∉
        (traverseDocument (Document.mk [("/a", { get := some 7 })] [])
          [deleteAllVisitor] []).paths) ∧
      (∃ q : PathItem Nat, ("/b", q) ∈
          (traverseDocument (Document.mk [("/b", { get := some 1, post := some 2 })] [])
            [deleteGetVisitor] []).paths ∧
        q.opOf .get = none ∧ (q.opOf .post).isSome = true ∧
        ∀ m, m ≠ .post → q.opOf m = none) := by
  constructor
  · exact cascade_deletion_correct.1 Nat _ [deleteAllVisitor] [] "/a" { get := some 7 }
      .get 7 (by decide) (by decide) rfl
      (by intro m hm; cases m <;> first | rfl | exact absurd rfl hm)
      rfl ⟨deleteAllVisitor, by simp, fun _ _ _ => rfl⟩
  · exact cascade_deletion_correct.2 Nat _ deleteGetVisitor [] "/b"
      { get := some 1, post := some 2 } .get .post 1 2
      (by decide) (by decide) rfl rfl
      (by intro m hm1 hm2; cases m <;> first | rfl | exact absurd rfl hm1 | exact absurd rfl hm2)
      (fun _ _ => rfl) (fun _ _ => rfl)

/-- C2: short-circuit on delete, stated on `processPath`, the engine's
per-path unit of work (`traverseDocument` applies it to each path entry).
For a populated `(path, method)` and a registered list `vs₁ ++ v :: vs₂`
whose first deleting visitor at that method is `v`: the operation is
removed from the surviving path entry, and the invocation trace for that
`(path, method)` is exactly the visitors `0 .. vs₁.length`, in order, each
exactly once — visitors after `v` are never invoked on it. -/
theorem delete_short_circuit (Op : Type) (vs₁ vs₂ : List (OperationVisitor Op))
    (v : OperationVisitor Op) (m : Method) (pth : String) (p : PathItem Op) (op : Op)
    (h1 : ∀ w ∈ vs₁, ∀ (o : Op) (s : String), (w o m s).2 = false)
    (hv : ∀ (o : Op) (s : String), (v o m s).2 = true)
    (hop : p.opOf m = some op) :
    (∀ q, (processPath (vs₁ ++ v :: vs₂) pth p).1 = some q → q.opOf m = none) ∧
      (processPath (vs₁ ++ v :: vs₂) pth p).2.filter (fun e => decide (e.2.1 = m)) =
        (List.range (vs₁.length + 1)).map (fun j => (pth, m, j)) := by
  obtain ⟨ha, hb, hfl⟩ := @visitMethods_firstDelete Op vs₁ vs₂ v m pth h1 hv
    methodsChecked p op hop (mem_methodsChecked m)
  constructor
  · intro q hq
    have hsplit : (processPath (vs₁ ++ v :: vs₂) pth p).1 = none ∨
        (processPath (vs₁ ++ v :: vs₂) pth p).1 =
          some (visitMethods (vs₁ ++ v :: vs₂) pth methodsChecked p).1 := by
      simp only [processPath, processPathWith]
      split
      · exact Or.inl rfl
      · exact Or.inr rfl
    rcases hsplit with h | h
    · rw [h] at hq; exact Option.noConfusion hq
    · rw [h] at hq; rw [← Option.some.inj hq]; exact ha
  · have hev : (processPath (vs₁ ++ v :: vs₂) pth p).2 =
        (visitMethods (vs₁ ++ v :: vs₂) pth methodsChecked p).2.2 := by
      simp only [processPath, processPathWith]
      split <;> rfl
    rw [hev, hb, List.range_eq_range']

theorem delete_short_circuit_witness :
    (∀ w ∈ [keepAllVisitor], ∀ (o : Nat) (s : String), (w o .get s).2 = false) ∧
      (∀ (o : Nat) (s : String), (deleteAllVisitor o .get s).2 = true) ∧
      (∀ q, (processPath ([keepAllVisitor] ++ deleteAllVisitor :: [keepAllVisitor])
          "/a" ({ get := some 7 } : PathItem Nat)).1 = some q → q.opOf .get = none) ∧
      (processPath ([keepAllVisitor] ++ deleteAllVisitor :: [keepAllVisitor]) "/a"
          ({ get := some 7 } : PathItem Nat)).2.filter (fun e => decide (e.2.1 = .get)) =
        (List.range ([keepAllVisitor].length + 1)).map (fun j => ("/a", .get, j)) := by
  have hk : ∀ w ∈ [keepAllVisitor], ∀ (o : Nat) (s : String), (w o .get s).2 = false := by
    intro w hw o s
    rw [List.mem_singleton] at hw
    subst hw; rfl
  have hd : ∀ (o : Nat) (s : String), (deleteAllVisitor o .get s).2 = true := fun _ _ => rfl
  obtain ⟨c1, c2⟩ := delete_short_circuit Nat [keepAllVisitor] [keepAllVisitor]
    deleteAllVisitor .get "/a" { get := some 7 } 7 hk hd rfl
  exact ⟨hk, hd, c1, c2⟩

/-- C3: a path entry whose `$ref` is truthy (the source's notion of
carrying a cross-reference marker: `!pathItem.$ref` fails) is still present
in the path mapping after `traverseDocument`, for every document and every
visitor configuration; in this pure rendering of the single sweep the
cascade can by construction fire at most once per path per call. -/
theorem ref_marked_paths_preserved (Op : Type) (doc : Document Op)
    (vs : List (OperationVisitor Op)) (pvs : List SchemaVisitor)
    (pth : String) (p : PathItem Op)
    (hmem : (pth, p) ∈ doc.paths) (href : refTruthy p.ref = true) :
    ∃ q : PathItem Op, (pth, q) ∈ (traverseDocument doc vs pvs).paths := by
  cases vs with
  | nil => exact ⟨p, by rw [traverseDocument_paths_nil]; exact hmem⟩
  | cons w ws =>
    refine ⟨(visitMethods (w :: ws) pth methodsChecked p).1, ?_⟩
    rw [traverseDocument_paths_cons]
    refine List.mem_filterMap.mpr ⟨(pth, p), hmem, ?_⟩
    have h2 : refTruthy (visitMethods (w :: ws) pth methodsChecked p).1.ref = true := by
      rw [visitMethods_ref]; exact href
    simp [processPathWith, h2]

theorem ref_marked_paths_preserved_witness :
    refTruthy (some "#/other") = true ∧
      ∃ q : PathItem Nat, ("/r", q) ∈
        (traverseDocument (Document.mk [("/r", { ref := some "#/other", get := some 5 })] [])
          [deleteAllVisitor] []).paths := by
  refine ⟨by decide, ?_⟩
  exact ref_marked_paths_preserved Nat _ [deleteAllVisitor] [] "/r"
    { ref := some "#/other", get := some 5 } (by decide) (by decide)

/-- C4 (counterexample): with the mutating visitor `incrementVisitor`
(never deleting, bumping its operation — a legitimate in-place edit of the
handed-in operation), the duplicated `'get'` in the check sequence is
observable: the surviving `get` operation is visited twice, so the final
document differs from the one produced by a traversal checking each method
exactly once. -/
theorem duplicate_get_counterexample :
    (traverseDocument sampleGetDoc [incrementVisitor] []).paths ≠
      (traverseDocumentOnce sampleGetDoc [incrementVisitor] []).paths := by decide

/-- C4 (amended): for operation visitors that never modify the operation
they receive, the duplicated `'get'` entry has no effect on the final
document — `traverseDocument` with the duplicated check sequence equals the
traversal checking each method exactly once.  (The sequence of visitor
invocations is still not preserved in general: a surviving `get`
operation's chain runs twice.) -/
theorem duplicate_get_harmless_for_nonmutating_visitors (Op : Type) (doc : Document Op)
    (ovs : List (OperationVisitor Op)) (pvs : List SchemaVisitor)
    (hnm : ∀ v ∈ ovs, ∀ (o : Op) (m : Method) (s : String), (v o m s).1 = o) :
    traverseDocument doc ovs pvs = traverseDocumentOnce doc ovs pvs := by
  cases ovs with
  | nil => rfl
  | cons w ws =>
    have key : ∀ (pth : String) (p : PathItem Op),
        (visitMethods (w :: ws) pth methodsChecked p).1 =
            (visitMethods (w :: ws) pth methodsOnce p).1 ∧
          (visitMethods (w :: ws) pth methodsChecked p).2.1 =
            (visitMethods (w :: ws) pth methodsOnce p).2.1 := by
      intro pth p
      rw [show methodsChecked = .delete :: .get :: .get ::
            [.head, .options, .patch, .post, .put] from rfl,
        show methodsOnce = .delete :: .get ::
            [.head, .options, .patch, .post, .put] from rfl]
      cases h : p.opOf .delete with
      | none =>
        rw [visitMethods_cons_none h, visitMethods_cons_none h]
        exact visitMethods_dup hnm .get _ p
      | some dop =>
        rw [visitMethods_cons_some h, visitMethods_cons_some h]
        dsimp only
        obtain ⟨d1, d2⟩ := visitMethods_dup hnm .get [.head, .options, .patch, .post, .put]
          (if (runChain (w :: ws) 0 dop .delete pth).2.1 then p.setOp .delete none
           else p.setOp .delete (some (runChain (w :: ws) 0 dop .delete pth).1))
        exact ⟨d1, by rw [d2]⟩
    have hpp : ∀ (pth : String) (p : PathItem Op),
        (processPathWith methodsChecked (w :: ws) pth p).1 =
          (processPathWith methodsOnce (w :: ws) pth p).1 := by
      intro pth p
      obtain ⟨k1, k2⟩ := key pth p
      simp only [processPathWith]
      rw [k1, k2, all_methodsChecked_eq_once]
      split <;> rfl
    have hfm : ∀ (l : List (String × PathItem Op)),
        (l.filterMap fun pr =>
            (processPathWith methodsChecked (w :: ws) pr.1 pr.2).1.map fun q => (pr.1, q)) =
          l.filterMap fun pr =>
            (processPathWith methodsOnce (w :: ws) pr.1 pr.2).1.map fun q => (pr.1, q) := by
      intro l
      induction l with
      | nil => rfl
      | cons x xs ih =>
        simp only [List.filterMap_cons]
        rw [hpp x.1 x.2, ih]
    refine Document.ext' ?_ rfl
    rw [traverseDocument_paths_cons, traverseDocumentOnce_paths_cons]
    exact hfm doc.paths

theorem duplicate_get_harmless_witness :
    (∀ v ∈ [deleteAllVisitor], ∀ (o : Nat) (m : Method) (s : String), (v o m s).1 = o) ∧
      traverseDocument sampleGetDoc [deleteAllVisitor] [] =
        traverseDocumentOnce sampleGetDoc [deleteAllVisitor] [] := by
  have h : ∀ v ∈ [deleteAllVisitor], ∀ (o : Nat) (m : Method) (s : String), (v o m s).1 = o := by
    intro v hv o m s
    rw [List.mem_singleton] at hv
    subst hv; rfl
  exact ⟨h, duplicate_get_harmless_for_nonmutating_visitors Nat sampleGetDoc
    [deleteAllVisitor] [] h⟩

end SwaggerHelpers
